/-
  Verification of the kool action-step automation engine against its
  natural-language specification.

  The Go sources available are the presets PresetConfig with HasTag, the
  AdonisJS preset definition, and shell.GetTerminalWidth.  The merge engine,
  recipe resolver, step executor and prompt engine are reconstructed from the
  specification document; definitions modelled that way carry a doc comment
  saying so.
-/
import Mathlib

set_option maxHeartbeats 1000000

namespace Kool

/-! ## Action step data model

Modelled from the spec: the `automate` package (ActionStep as a single struct
with optional fields, one kind populated per instance) is not among the
available sources; the shape below follows the spec data model and the YAML
definition format. -/

/-- An action step: a single struct with optional fields `scripts`, `copy`,
`merge`+`dst`, `recipe`, `prompt`+`default`+`options`; the populated field
selects the kind.  Prompt options are pairs of an option name and the nested
action list. -/
inductive ActionStep where
  | mk (scripts : List String) (copy : String) (merge : String) (dst : String)
       (recipe : String) (prompt : String) (defaultName : String)
       (options : List (String × List ActionStep))
deriving Repr

/-- A named, ordered batch of action steps. -/
structure ActionGroup where
  name : String
  actions : List ActionStep
deriving Repr

/-- From src/unnamed/part_000: the preset configuration struct. -/
structure PresetConfig where
  name : String
  tags : List String
  create : List ActionGroup
  preset : List ActionGroup
  presetID : String
deriving Repr

/-- From src/unnamed/part_000 (`HasTag` loop body): scan the tag list,
returning true on the first exact match. -/
def hasTagList (tag : String) : List String → Bool
  | [] => false
  | t :: ts => if tag = t then true else hasTagList tag ts

/-- From src/unnamed/part_000: `func (c *PresetConfig) HasTag(tag string) bool`. -/
def PresetConfig.hasTag (c : PresetConfig) (tag : String) : Bool :=
  hasTagList tag c.tags

/-- Convenience constructor for a scripts step. -/
def scriptsStep (cmds : List String) : ActionStep := .mk cmds "" "" "" "" "" "" []

/-- Convenience constructor for a copy step. -/
def copyStep (src : String) : ActionStep := .mk [] src "" "" "" "" "" []

/-- Convenience constructor for a merge step. -/
def mergeStep (src dst : String) : ActionStep := .mk [] "" src dst "" "" "" []

/-- Convenience constructor for a recipe step. -/
def recipeStep (n : String) : ActionStep := .mk [] "" "" "" n "" "" []

/-- Convenience constructor for a prompt step. -/
def promptStep (q dflt : String) (opts : List (String × List ActionStep)) : ActionStep :=
  .mk [] "" "" "" "" q dflt opts

/-- The prompt step of the AdonisJS preset (src/unnamed/part_001, `preset`
section, package-manager question). -/
def adonisPromptStep : ActionStep :=
  promptStep "Which javascript package manager do you want to use?" "npm"
    [("npm", [mergeStep "scripts/npm-adonis.yml" "kool.yml"]),
     ("yarn", [mergeStep "scripts/yarn-adonis.yml" "kool.yml"])]

/-- From src/unnamed/part_001: the AdonisJS preset definition. -/
def adonisPreset : PresetConfig where
  name := "AdonisJS"
  tags := ["JS"]
  create :=
    [⟨"Creating new Adonis Application",
      [scriptsStep
        ["docker pull -q kooldev/node:21",
         "kool docker kooldev/node:21 npx -y @adonisjs/cli new $CREATE_DIRECTORY",
         "kool docker kooldev/node:21 npm --prefix=$CREATE_DIRECTORY i @adonisjs/cli"]]⟩]
  preset :=
    [⟨"Copy basic config files",
      [copyStep "docker-compose.yml",
       copyStep "kool.yml",
       mergeStep "app/node-adonis.yml" "docker-compose.yml"]⟩,
     ⟨"Customize your setup",
      [recipeStep "pick-db",
       recipeStep "pick-cache",
       adonisPromptStep]⟩]
  presetID := ""

/-! ## Terminal width (src/core/shell/terminal_size.go) -/

/-- The dynamic type of the `interface\x7b\x7d` argument of `GetTerminalWidth`:
either an `*os.File` (abstracted by its descriptor) or any other type. -/
inductive TTYInput where
  | file (fd : Nat)
  | notFile
deriving Repr, DecidableEq

/-- Result of `GetTerminalWidth`; `queried` records whether `term.GetSize`
was invoked. -/
structure TermWidthResult where
  width : Int
  errMsg : Option String
  queried : Bool
deriving Repr, DecidableEq

/-- From src/core/shell/terminal_size.go: type-assert the argument to
`*os.File`; on failure return the standard width and an error without
querying; otherwise query `term.GetSize` (modelled by the `getSize`
parameter returning width and error; the height is dropped by the source). -/
def GetTerminalWidth (standardTermWidth : Int) (getSize : Nat → Int × Option String) :
    TTYInput → TermWidthResult
  | .notFile => ⟨standardTermWidth, some "TTY is not a files", false⟩
  | .file fd => ⟨(getSize fd).1, (getSize fd).2, true⟩

/-! ## Claim C1 and C10 theorems -/

lemma hasTagList_iff_mem (tag : String) (l : List String) :
    hasTagList tag l = true ↔ tag ∈ l := by
  induction l with
  | nil => simp [hasTagList]
  | cons t ts ih =>
    by_cases h : tag = t
    · subst h; simp [hasTagList]
    · simp [hasTagList, h, ih]

/-- C1: `HasTag` returns true exactly when some element of `Tags` equals the
argument, with case-sensitive exact comparison; the AdonisJS preset (tags
`["JS"]`) has tag "JS" but not "PHP", and not the differently-cased "js". -/
theorem C1_hasTag_exact_membership :
    (∀ (c : PresetConfig) (tag : String), c.hasTag tag = true ↔ tag ∈ c.tags)
    ∧ adonisPreset.hasTag "JS" = true
    ∧ adonisPreset.hasTag "PHP" = false
    ∧ adonisPreset.hasTag "js" = false := by
  refine ⟨fun c tag => hasTagList_iff_mem tag c.tags, ?_, ?_, ?_⟩ <;> decide

/-- C10: a non-`*os.File` argument yields the standard fallback width and a
non-nil error without querying the terminal size; the size query happens
only for an `*os.File`. -/
theorem C10_terminal_width_fallback :
    (∀ (w : Int) (gs : Nat → Int × Option String),
      GetTerminalWidth w gs TTYInput.notFile = ⟨w, some "TTY is not a files", false⟩)
    ∧ (∀ (w : Int) (gs : Nat → Int × Option String) (fd : Nat),
      (GetTerminalWidth w gs (TTYInput.file fd)).queried = true) := by
  exact ⟨fun w gs => rfl, fun w gs fd => rfl⟩

/-! ## YAML merge engine

Modelled from the spec: the merge engine source is not among the available
files; the definitions below follow the contract of spec section 4.3 (scalars
replaced, mappings merged key-by-key, sequences replaced wholesale,
empty-document copy-through, top-level type conflict error). -/

/-- A structured YAML value: scalar, sequence, or mapping given as an ordered
list of key/value entries. -/
inductive Yaml where
  | scalar (s : String)
  | seq (items : List Yaml)
  | map (entries : List (String × Yaml))
deriving Repr

/-- First value stored under key `k` in an association list. -/
def lookupKey {α : Type} (k : String) : List (String × α) → Option α
  | [] => none
  | e :: rest => if e.1 = k then some e.2 else lookupKey k rest

mutual
/-- Modelled from the spec (4.3): deep merge of two YAML values.  Mappings
merge key-by-key; any other overlay value replaces the base wholesale. -/
def mergeYaml : Yaml → Yaml → Yaml
  | Yaml.map b, Yaml.map o =>
    Yaml.map (mergeBase b o ++ o.filter fun e => (lookupKey e.1 b).isNone)
  | _, o => o
termination_by y _ => sizeOf y

/-- Modelled from the spec (4.3): the base entries of a mapping merge, in
base order; entries whose key also appears in the overlay recurse into the
value merge, the rest are kept. -/
def mergeBase : List (String × Yaml) → List (String × Yaml) → List (String × Yaml)
  | [], _ => []
  | (k, v) :: rest, o =>
    (k, match lookupKey k o with
        | some ov => mergeYaml v ov
        | none => v) :: mergeBase rest o
termination_by b _ => sizeOf b
end

/-- Key-by-key merge of two mappings: merged base entries followed by the
overlay-only entries, in overlay order. -/
def mergeMap (b o : List (String × Yaml)) : List (String × Yaml) :=
  mergeBase b o ++ o.filter fun e => (lookupKey e.1 b).isNone

/-- Keys of a mapping, in order. -/
def keysOf (m : List (String × Yaml)) : List String := m.map Prod.fst

/-- No string occurs twice. -/
def noDupKeys : List String → Bool
  | [] => true
  | k :: ks => !ks.contains k && noDupKeys ks

mutual
/-- Well-formed YAML: mapping keys are duplicate-free at every level (as in
any document produced by a YAML parser). -/
def wfY : Yaml → Bool
  | .scalar _ => true
  | .seq l => wfList l
  | .map m => noDupKeys (keysOf m) && wfEntries m
termination_by y => sizeOf y

/-- All sequence items well-formed. -/
def wfList : List Yaml → Bool
  | [] => true
  | y :: ys => wfY y && wfList ys
termination_by l => sizeOf l

/-- All mapping values well-formed. -/
def wfEntries : List (String × Yaml) → Bool
  | [] => true
  | (_, v) :: rest => wfY v && wfEntries rest
termination_by m => sizeOf m
end

/-- Merge failure: base and overlay top-level types differ. -/
inductive MergeError where
  | typeConflict
deriving Repr, DecidableEq

/-- A document: empty (non-existent destination file) or a YAML value. -/
inductive Document where
  | empty
  | doc (y : Yaml)
deriving Repr

/-- Do two YAML values have the same top-level type? -/
def sameKind : Yaml → Yaml → Bool
  | .scalar _, .scalar _ => true
  | .seq _, .seq _ => true
  | .map _, .map _ => true
  | _, _ => false

/-- Modelled from the spec (4.3): document-level merge.  An empty side is
copy-through; differing top-level types fail with `MergeTypeConflictError`. -/
def Merge : Document → Document → Except MergeError Document
  | d, .empty => .ok d
  | .empty, .doc o => .ok (.doc o)
  | .doc b, .doc o =>
    if sameKind b o then .ok (.doc (mergeYaml b o)) else .error .typeConflict

/-- Well-formed document. -/
def wfDoc : Document → Bool
  | .empty => true
  | .doc y => wfY y

/-! ### Association list lemmas -/

lemma lookupKey_append {α : Type} (k : String) (a b : List (String × α)) :
    lookupKey k (a ++ b) =
      match lookupKey k a with
      | some v => some v
      | none => lookupKey k b := by
  induction a with
  | nil => simp [lookupKey]
  | cons e rest ih => by_cases h : e.1 = k <;> simp [lookupKey, h, ih]

lemma lookupKey_mem {α : Type} {k : String} {v : α} :
    ∀ {m : List (String × α)}, lookupKey k m = some v → (k, v) ∈ m := by
  intro m
  induction m with
  | nil => intro h; simp [lookupKey] at h
  | cons e rest ih =>
    obtain ⟨k2, v2⟩ := e
    intro h
    by_cases he : k2 = k
    · subst he
      simp [lookupKey] at h
      subst h
      exact List.mem_cons_self _ _
    · simp [lookupKey, he] at h
      exact List.mem_cons_of_mem _ (ih h)

lemma mem_lookupKey_isSome {α : Type} {k : String} {v : α} :
    ∀ {m : List (String × α)}, (k, v) ∈ m → (lookupKey k m).isSome = true := by
  intro m
  induction m with
  | nil => intro h; simp at h
  | cons e rest ih =>
    obtain ⟨k2, v2⟩ := e
    intro h
    by_cases he : k2 = k
    · simp [lookupKey, he]
    · rcases List.mem_cons.mp h with h1 | h1
      · exact absurd (congrArg Prod.fst h1).symm he
      · simpa [lookupKey, he] using ih h1

lemma sizeOf_val_lt_of_mem {k : String} {v : Yaml} {m : List (String × Yaml)}
    (h : (k, v) ∈ m) : sizeOf v < sizeOf m := by
  have h1 : sizeOf (k, v) < sizeOf m := List.sizeOf_lt_of_mem h
  have h2 : sizeOf (k, v) = 1 + sizeOf k + sizeOf v := rfl
  omega

lemma lookupKey_of_mem_nodup {k : String} {v : Yaml} :
    ∀ {m : List (String × Yaml)}, noDupKeys (keysOf m) = true → (k, v) ∈ m →
      lookupKey k m = some v := by
  intro m
  induction m with
  | nil => intro _ h; simp at h
  | cons e rest ih =>
    obtain ⟨k2, v2⟩ := e
    intro hnd h
    have hnd' : (¬ (keysOf rest).contains k2 = true) ∧ noDupKeys (keysOf rest) = true := by
      simpa [keysOf, noDupKeys] using hnd
    by_cases he : k2 = k
    · subst he
      rcases List.mem_cons.mp h with h1 | h1
      · injection h1 with h1a h1b
        subst h1b
        simp [lookupKey]
      · exfalso
        apply hnd'.1
        have : k2 ∈ keysOf rest := List.mem_map_of_mem Prod.fst h1
        simpa [List.elem_iff] using this
    · rcases List.mem_cons.mp h with h1 | h1
      · exact absurd (congrArg Prod.fst h1).symm he
      · simpa [lookupKey, he] using ih hnd'.2 h1

lemma wfEntries_mem {k : String} {v : Yaml} :
    ∀ {m : List (String × Yaml)}, wfEntries m = true → (k, v) ∈ m → wfY v = true := by
  intro m
  induction m with
  | nil => intro _ h; simp at h
  | cons e rest ih =>
    intro hwf h
    obtain ⟨k2, v2⟩ := e
    rw [wfEntries] at hwf
    simp only [Bool.and_eq_true] at hwf
    obtain ⟨h1, h2⟩ := hwf
    rcases List.mem_cons.mp h with h3 | h3
    · cases h3; exact h1
    · exact ih h2 h3

/-! ### Merge engine lemmas -/

lemma mergeYaml_map_map (b o : List (String × Yaml)) :
    mergeYaml (Yaml.map b) (Yaml.map o) = Yaml.map (mergeMap b o) := by
  simp [mergeYaml, mergeMap]

lemma mergeYaml_seq (b : Yaml) (l : List Yaml) :
    mergeYaml b (Yaml.seq l) = Yaml.seq l := by
  cases b <;> simp [mergeYaml]

lemma mergeYaml_scalar (b : Yaml) (s : String) :
    mergeYaml b (Yaml.scalar s) = Yaml.scalar s := by
  cases b <;> simp [mergeYaml]

lemma mergeBase_nil (o : List (String × Yaml)) : mergeBase [] o = [] := by
  simp [mergeBase]

lemma mergeBase_cons (k : String) (v : Yaml) (rest o : List (String × Yaml)) :
    mergeBase ((k, v) :: rest) o =
      (k, match lookupKey k o with
          | some ov => mergeYaml v ov
          | none => v) :: mergeBase rest o := by
  simp [mergeBase]

lemma lookupKey_mergeBase (k : String) :
    ∀ (m o : List (String × Yaml)),
      lookupKey k (mergeBase m o) =
        match lookupKey k m with
        | some v => some (match lookupKey k o with
                          | some ov => mergeYaml v ov
                          | none => v)
        | none => none := by
  intro m o
  induction m with
  | nil => simp [mergeBase, lookupKey]
  | cons e rest ih =>
    obtain ⟨k2, v2⟩ := e
    by_cases h : k2 = k
    · subst h
      simp [mergeBase_cons, lookupKey]
    · simp [mergeBase_cons, lookupKey, h, ih]

lemma keysOf_mergeBase : ∀ (m o : List (String × Yaml)),
    keysOf (mergeBase m o) = keysOf m := by
  intro m o
  induction m with
  | nil => simp [mergeBase, keysOf]
  | cons e rest ih =>
    obtain ⟨k2, v2⟩ := e
    simp [mergeBase_cons, keysOf] at ih ⊢
    exact ih

lemma mergeBase_append (a b o : List (String × Yaml)) :
    mergeBase (a ++ b) o = mergeBase a o ++ mergeBase b o := by
  induction a with
  | nil => simp [mergeBase]
  | cons e rest ih =>
    obtain ⟨k2, v2⟩ := e
    simp [mergeBase_cons, ih]

lemma lookupKey_filt (b : List (String × Yaml)) (k : String)
    (h : lookupKey k b = none) :
    ∀ o : List (String × Yaml),
      lookupKey k (o.filter fun e => (lookupKey e.1 b).isNone) = lookupKey k o := by
  intro o
  induction o with
  | nil => simp
  | cons e rest ih =>
    obtain ⟨k2, v2⟩ := e
    by_cases he : k2 = k
    · subst he
      simp [List.filter_cons, h, lookupKey]
    · by_cases hp : (lookupKey k2 b).isNone = true
      · simp [List.filter_cons, hp, lookupKey, he, ih]
      · simp [List.filter_cons, hp, lookupKey, he, ih]

/-- Base entries already contained in the overlay merge to themselves, given
duplicate-free overlay keys and self-merge of the overlay values. -/
lemma mergeBase_mem_id (mo : List (String × Yaml))
    (hnd : noDupKeys (keysOf mo) = true)
    (hself : ∀ k v, (k, v) ∈ mo → mergeYaml v v = v) :
    ∀ m : List (String × Yaml), (∀ e, e ∈ m → e ∈ mo) → mergeBase m mo = m := by
  intro m
  induction m with
  | nil => intro _; exact mergeBase_nil mo
  | cons e rest ih =>
    intro hsub
    obtain ⟨k, v⟩ := e
    have hmem : (k, v) ∈ mo := hsub _ (List.mem_cons_self _ _)
    have hl : lookupKey k mo = some v := lookupKey_of_mem_nodup hnd hmem
    rw [mergeBase_cons, hl]
    simp only
    rw [hself k v hmem, ih (fun e he => hsub _ (List.mem_cons_of_mem _ he))]

/-- Re-merging a merged base against the same overlay is the identity, given
idempotence of the value merge for overlay values. -/
lemma mergeBase_idem_aux (mo : List (String × Yaml))
    (hidem : ∀ k ov v, lookupKey k mo = some ov → wfY v = true →
      mergeYaml (mergeYaml v ov) ov = mergeYaml v ov) :
    ∀ mb, wfEntries mb = true → mergeBase (mergeBase mb mo) mo = mergeBase mb mo := by
  intro mb
  induction mb with
  | nil => intro _; rw [mergeBase_nil, mergeBase_nil]
  | cons e rest ih =>
    intro hwf
    obtain ⟨k, v⟩ := e
    rw [wfEntries] at hwf
    simp only [Bool.and_eq_true] at hwf
    obtain ⟨hv, hrest⟩ := hwf
    rw [mergeBase_cons]
    cases hl : lookupKey k mo with
    | some ov =>
      simp only
      rw [mergeBase_cons, hl]
      simp only
      rw [hidem k ov v hl hv, ih hrest]
    | none =>
      simp only
      rw [mergeBase_cons, hl]
      simp only
      rw [ih hrest]

/-- Main induction: for well-formed YAML, self-merge is the identity and
merging the same overlay twice equals merging it once. -/
lemma merge_idem_main : ∀ (n : Nat) (o : Yaml), sizeOf o ≤ n → wfY o = true →
    mergeYaml o o = o ∧
    (∀ v, wfY v = true → mergeYaml (mergeYaml v o) o = mergeYaml v o) := by
  intro n
  induction n with
  | zero =>
    intro o hsz _
    exfalso
    cases o <;> simp at hsz
  | succ n ih =>
    intro o hsz hwf
    match o with
    | .scalar s =>
      refine ⟨mergeYaml_scalar _ s, fun v _ => ?_⟩
      rw [mergeYaml_scalar, mergeYaml_scalar]
    | .seq l =>
      refine ⟨mergeYaml_seq _ l, fun v _ => ?_⟩
      rw [mergeYaml_seq, mergeYaml_seq]
    | .map mo =>
      rw [wfY] at hwf
      simp only [Bool.and_eq_true] at hwf
      obtain ⟨hnd, hent⟩ := hwf
      have hszmo : sizeOf mo ≤ n := by
        have : sizeOf (Yaml.map mo) = 1 + sizeOf mo := by simp
        omega
      have hval_sz : ∀ k v, (k, v) ∈ mo → sizeOf v ≤ n := by
        intro k v hm
        have := sizeOf_val_lt_of_mem hm
        omega
      have hself : ∀ k v, (k, v) ∈ mo → mergeYaml v v = v := by
        intro k v hm
        exact (ih v (hval_sz k v hm) (wfEntries_mem hent hm)).1
      have hidem : ∀ k ov v, lookupKey k mo = some ov → wfY v = true →
          mergeYaml (mergeYaml v ov) ov = mergeYaml v ov := by
        intro k ov v hl hv
        have hm := lookupKey_mem hl
        exact (ih ov (hval_sz k ov hm) (wfEntries_mem hent hm)).2 v hv
      have hA : mergeYaml (Yaml.map mo) (Yaml.map mo) = Yaml.map mo := by
        rw [mergeYaml_map_map]
        unfold mergeMap
        have h1 : mergeBase mo mo = mo := mergeBase_mem_id mo hnd hself mo (fun _ he => he)
        have h2 : (mo.filter fun e => (lookupKey e.1 mo).isNone) = [] := by
          apply List.filter_eq_nil_iff.mpr
          intro e he
          have : (lookupKey e.1 mo).isSome = true := by
            have he' : (e.1, e.2) ∈ mo := by simpa using he
            exact mem_lookupKey_isSome he'
          simp [Option.isNone] at this ⊢
          cases hl : lookupKey e.1 mo with
          | some _ => simp
          | none => rw [hl] at this; simp at this
        rw [h1, h2, List.append_nil]
      refine ⟨hA, ?_⟩
      intro v hv
      match v with
      | .scalar s =>
        have h1 : mergeYaml (Yaml.scalar s) (Yaml.map mo) = Yaml.map mo := by
          simp [mergeYaml]
        rw [h1, hA]
      | .seq l =>
        have h1 : mergeYaml (Yaml.seq l) (Yaml.map mo) = Yaml.map mo := by
          simp [mergeYaml]
        rw [h1, hA]
      | .map mb =>
        rw [wfY] at hv
        simp only [Bool.and_eq_true] at hv
        obtain ⟨hndb, hentb⟩ := hv
        rw [mergeYaml_map_map, mergeYaml_map_map]
        congr 1
        have hfiltM : ((mo.filter fun e => (lookupKey e.1 (mergeMap mb mo)).isNone)) = [] := by
          apply List.filter_eq_nil_iff.mpr
          intro e he
          have hsome : (lookupKey e.1 (mergeMap mb mo)).isSome = true := by
            unfold mergeMap
            rw [lookupKey_append]
            cases hb : lookupKey e.1 mb with
            | some v0 =>
              rw [lookupKey_mergeBase, hb]
              simp
            | none =>
              rw [lookupKey_mergeBase, hb]
              simp only
              have he' : (e.1, e.2) ∈ mo.filter fun e2 => (lookupKey e2.1 mb).isNone := by
                apply List.mem_filter.mpr
                refine ⟨by simpa using he, by rw [hb]; rfl⟩
              exact mem_lookupKey_isSome he'
          simp [Option.isNone_iff_eq_none]
          intro hnone
          rw [hnone] at hsome
          simp at hsome
        have hbaseM : mergeBase (mergeMap mb mo) mo = mergeMap mb mo := by
          unfold mergeMap
          rw [mergeBase_append]
          have ha : mergeBase (mergeBase mb mo) mo = mergeBase mb mo :=
            mergeBase_idem_aux mo hidem mb hentb
          have hb : mergeBase (mo.filter fun e => (lookupKey e.1 mb).isNone) mo
              = mo.filter fun e => (lookupKey e.1 mb).isNone :=
            mergeBase_mem_id mo hnd hself _ (fun e he => (List.mem_filter.mp he).1)
          rw [ha, hb]
        calc mergeMap (mergeMap mb mo) mo
            = mergeBase (mergeMap mb mo) mo
              ++ (mo.filter fun e => (lookupKey e.1 (mergeMap mb mo)).isNone) := rfl
          _ = mergeMap mb mo := by rw [hbaseM, hfiltM, List.append_nil]

lemma sameKind_self (o : Yaml) : sameKind o o = true := by
  cases o <;> simp [sameKind]

lemma sameKind_merge (b o : Yaml) : sameKind (mergeYaml b o) o = true := by
  cases b <;> cases o <;> simp [mergeYaml, sameKind]

/-! ### Claims C2, C3, C4 -/

/-- C2: the empty document is a two-sided identity of the document merge. -/
theorem C2_merge_empty_identity :
    ∀ D : Document, Merge D Document.empty = Except.ok D
      ∧ Merge Document.empty D = Except.ok D := by
  intro D
  cases D <;> simp [Merge]

/-- C3: merging the same overlay twice equals merging it once, for
well-formed documents (duplicate-free mapping keys, as produced by any YAML
parser). -/
theorem C3_merge_idempotent (B O M : Document)
    (hB : wfDoc B = true) (hO : wfDoc O = true)
    (h : Merge B O = Except.ok M) : Merge M O = Except.ok M := by
  cases O with
  | empty =>
    cases B <;> simp [Merge] at h <;> subst h <;> simp [Merge]
  | doc o =>
    have ho : wfY o = true := hO
    cases B with
    | empty =>
      simp [Merge] at h
      subst h
      have := (merge_idem_main (sizeOf o) o le_rfl ho).1
      simp [Merge, sameKind_self, this]
    | doc b =>
      have hb : wfY b = true := hB
      by_cases hsk : sameKind b o = true
      · simp [Merge, hsk] at h
        subst h
        have h2 := (merge_idem_main (sizeOf o) o le_rfl ho).2 b hb
        simp [Merge, sameKind_merge, h2]
      · simp [Merge, hsk] at h

/-- Witness for C3 at a concrete base and overlay. -/
theorem C3_merge_idempotent_witness :
    Merge (Document.doc (Yaml.map [("a", Yaml.scalar "1")]))
          (Document.doc (Yaml.map [("a", Yaml.scalar "2"), ("b", Yaml.scalar "3")]))
        = Except.ok (Document.doc (Yaml.map [("a", Yaml.scalar "2"), ("b", Yaml.scalar "3")]))
    ∧ Merge (Document.doc (Yaml.map [("a", Yaml.scalar "2"), ("b", Yaml.scalar "3")]))
          (Document.doc (Yaml.map [("a", Yaml.scalar "2"), ("b", Yaml.scalar "3")]))
        = Except.ok (Document.doc (Yaml.map [("a", Yaml.scalar "2"), ("b", Yaml.scalar "3")])) := by
  have h1 : Merge (Document.doc (Yaml.map [("a", Yaml.scalar "1")]))
          (Document.doc (Yaml.map [("a", Yaml.scalar "2"), ("b", Yaml.scalar "3")]))
        = Except.ok (Document.doc (Yaml.map [("a", Yaml.scalar "2"), ("b", Yaml.scalar "3")])) := by
    simp [Merge, sameKind, mergeYaml, mergeBase, lookupKey, List.filter]
  refine ⟨h1, ?_⟩
  exact C3_merge_idempotent _ _ _
    (by simp [wfDoc, wfY, wfEntries, noDupKeys, keysOf, List.contains])
    (by simp [wfDoc, wfY, wfEntries, noDupKeys, keysOf, List.contains])
    h1

/-- C4: overlay sequences and scalars replace the base value wholesale
(never element-wise), while mappings merge key-by-key: base-only keys keep
the base value, overlay-only keys are added, keys in both recurse. -/
theorem C4_sequence_replace_map_merge :
    (∀ (b : Yaml) (l : List Yaml), mergeYaml b (Yaml.seq l) = Yaml.seq l)
    ∧ (∀ (b : Yaml) (s : String), mergeYaml b (Yaml.scalar s) = Yaml.scalar s)
    ∧ (∀ bm om : List (String × Yaml),
        mergeYaml (Yaml.map bm) (Yaml.map om) = Yaml.map (mergeMap bm om))
    ∧ (∀ (bm om : List (String × Yaml)) (k : String),
        lookupKey k (mergeMap bm om) =
          match lookupKey k bm, lookupKey k om with
          | some v, some ov => some (mergeYaml v ov)
          | some v, none => some v
          | none, some ov => some ov
          | none, none => none) := by
  refine ⟨mergeYaml_seq, mergeYaml_scalar, mergeYaml_map_map, ?_⟩
  intro bm om k
  unfold mergeMap
  rw [lookupKey_append, lookupKey_mergeBase]
  cases hb : lookupKey k bm with
  | some v =>
    simp only
    cases ho : lookupKey k om <;> simp
  | none =>
    simp only
    rw [lookupKey_filt bm k hb om]
    cases ho : lookupKey k om <;> simp

/-! ## Recipe/Preset resolver

Modelled from the spec (4.1): the resolver source is not among the available
files.  A registry maps each definition name to the ordered list of recipe
names its steps reference; resolution walks references recursively,
maintaining the resolution-path stack and checking it before each expansion.
The recursion carries explicit fuel so that exhaustion is an observable
outcome (`none`) distinct from any error; the termination claim is the
theorem that sufficient fuel is never exhausted. -/

/-- Registry of recipe definitions, each abstracted to the ordered list of
recipe names it references. -/
abbrev RecipeRegistry := List (String × List String)

/-- Resolution failures of spec section 7. -/
inductive ResolveError where
  | notFound (name : String)
  | cyclic (name : String)
deriving Repr, DecidableEq

mutual
/-- Modelled from the spec (4.1): resolve one name.  A name already on the
resolution-path stack fails with `CyclicRecipeError` before expanding; an
unknown name fails with `NotFoundError`; otherwise the referenced names are
resolved under the extended stack. -/
def resolveNameF (reg : RecipeRegistry) : Nat → List String → String →
    Option (Except ResolveError Unit)
  | 0, _, _ => none
  | fuel + 1, stack, n =>
    if n ∈ stack then some (.error (.cyclic n))
    else
      match lookupKey n reg with
      | none => some (.error (.notFound n))
      | some refs => resolveListF reg fuel (n :: stack) refs
termination_by fuel _ _ => (fuel, 0)

/-- Resolve a list of referenced names in order, stopping at the first
failure. -/
def resolveListF (reg : RecipeRegistry) : Nat → List String → List String →
    Option (Except ResolveError Unit)
  | _, _, [] => some (.ok ())
  | fuel, stack, r :: rs =>
    match resolveNameF reg fuel stack r with
    | none => none
    | some (.error e) => some (.error e)
    | some (.ok _) => resolveListF reg fuel stack rs
termination_by fuel _ l => (fuel, l.length + 1)
end

/-- Number of registry names not yet on the resolution-path stack; the
decreasing measure of resolution. -/
def remainingNames (reg : RecipeRegistry) (stack : List String) : Nat :=
  ((reg.map Prod.fst).filter fun k => !stack.contains k).length

/-- The reference relation of a registry: `a` references `b` directly. -/
def RefEdge (reg : RecipeRegistry) (a b : String) : Prop :=
  ∃ refs, lookupKey a reg = some refs ∧ b ∈ refs

/-- `b` is reachable from `a` through recipe references. -/
abbrev Reaches (reg : RecipeRegistry) : String → String → Prop :=
  Relation.ReflTransGen (RefEdge reg)

lemma length_filter_impl {α : Type} (p q : α → Bool)
    (h : ∀ a, q a = true → p a = true) :
    ∀ l : List α, (l.filter q).length ≤ (l.filter p).length := by
  intro l
  induction l with
  | nil => simp
  | cons a t ih =>
    cases hq : q a with
    | true => simp [List.filter_cons, hq, h a hq]; omega
    | false =>
      cases hp : p a with
      | true => simp [List.filter_cons, hq, hp]; omega
      | false => simpa [List.filter_cons, hq, hp] using ih

lemma length_filter_lt {α : Type} (p q : α → Bool)
    (h : ∀ a, q a = true → p a = true) (n : α)
    (hp : p n = true) (hq : q n = false) :
    ∀ l : List α, n ∈ l → (l.filter q).length < (l.filter p).length := by
  intro l
  induction l with
  | nil => intro hn; simp at hn
  | cons a t ih =>
    intro hn
    rcases List.mem_cons.mp hn with rfl | hmem
    · have := length_filter_impl p q h t
      simp [List.filter_cons, hp, hq]
      omega
    · cases hq2 : q a with
      | true =>
        simp [List.filter_cons, hq2, h a hq2]
        exact ih hmem
      | false =>
        cases hp2 : p a with
        | true =>
          have := ih hmem
          simp [List.filter_cons, hq2, hp2]
          omega
        | false =>
          simpa [List.filter_cons, hq2, hp2] using ih hmem

lemma remainingNames_push (reg : RecipeRegistry) (stack : List String)
    (n : String) (hmem : n ∈ reg.map Prod.fst) (hn : n ∉ stack) :
    remainingNames reg (n :: stack) < remainingNames reg stack := by
  apply length_filter_lt
  · intro a ha
    simp [List.elem_iff] at ha ⊢
    exact ha.2
  · simpa [List.elem_iff] using hn
  · simp [List.elem_iff]
  · exact hmem

/-- Sufficient fuel is never exhausted: resolution always terminates with an
answer, on cyclic graphs included. -/
lemma resolveF_total (reg : RecipeRegistry) :
    ∀ fuel : Nat,
      (∀ stack n, remainingNames reg stack < fuel →
        resolveNameF reg fuel stack n ≠ none)
      ∧ (∀ stack l, remainingNames reg stack < fuel →
        resolveListF reg fuel stack l ≠ none) := by
  intro fuel
  induction fuel with
  | zero => exact ⟨fun stack n h => by omega, fun stack l h => by omega⟩
  | succ fuel ih =>
    have hname : ∀ stack n, remainingNames reg stack < fuel + 1 →
        resolveNameF reg (fuel + 1) stack n ≠ none := by
      intro stack n hrem
      rw [resolveNameF]
      by_cases hst : n ∈ stack
      · simp [hst]
      · simp only [hst, if_false]
        cases hlk : lookupKey n reg with
        | none => simp
        | some refs =>
          have hkey : n ∈ reg.map Prod.fst :=
            List.mem_map_of_mem Prod.fst (lookupKey_mem hlk)
          have hlt : remainingNames reg (n :: stack) < fuel := by
            have := remainingNames_push reg stack n hkey hst
            omega
          exact ih.2 (n :: stack) refs hlt
    refine ⟨hname, ?_⟩
    intro stack l hrem
    induction l with
    | nil => simp [resolveListF]
    | cons r rs ihl =>
      rw [resolveListF]
      cases hr : resolveNameF reg (fuel + 1) stack r with
      | none => exact absurd hr (hname stack r hrem)
      | some res =>
        cases res with
        | error e => simp
        | ok u => simpa using ihl

lemma resolveListF_error_elem (reg : RecipeRegistry) (fuel : Nat)
    (stack : List String) (e : ResolveError) :
    ∀ l, resolveListF reg fuel stack l = some (.error e) →
      ∃ r ∈ l, resolveNameF reg fuel stack r = some (.error e) := by
  intro l
  induction l with
  | nil => intro h; simp [resolveListF] at h
  | cons r rs ih =>
    intro h
    rw [resolveListF] at h
    cases hr : resolveNameF reg fuel stack r with
    | none => rw [hr] at h; simp at h
    | some res =>
      cases res with
      | error e2 =>
        rw [hr] at h
        simp at h
        exact ⟨r, List.mem_cons_self _ _, by rw [hr, h]⟩
      | ok u =>
        rw [hr] at h
        simp at h
        obtain ⟨r2, hr2, herr⟩ := ih h
        exact ⟨r2, List.mem_cons_of_mem _ hr2, herr⟩

lemma resolveListF_ok_all (reg : RecipeRegistry) (fuel : Nat)
    (stack : List String) :
    ∀ l, resolveListF reg fuel stack l = some (.ok ()) →
      ∀ r ∈ l, resolveNameF reg fuel stack r = some (.ok ()) := by
  intro l
  induction l with
  | nil => intro _ r hr; simp at hr
  | cons r rs ih =>
    intro h r2 hr2
    rw [resolveListF] at h
    cases hr : resolveNameF reg fuel stack r with
    | none => rw [hr] at h; simp at h
    | some res =>
      cases res with
      | error e => rw [hr] at h; simp at h
      | ok u =>
        rw [hr] at h
        simp at h
        rcases List.mem_cons.mp hr2 with rfl | hmem
        · rw [hr]
        · exact ih h r2 hmem

/-- Any error produced by resolution is a not-found on a reachable undefined
name, or a cycle error. -/
lemma resolve_err_shape (reg : RecipeRegistry) :
    ∀ (fuel : Nat) (stack : List String) (n : String) (e : ResolveError),
      resolveNameF reg fuel stack n = some (.error e) →
      (∃ m, e = .notFound m ∧ Reaches reg n m ∧ lookupKey m reg = none)
      ∨ (∃ c, e = .cyclic c) := by
  intro fuel
  induction fuel with
  | zero => intro stack n e h; rw [resolveNameF] at h; simp at h
  | succ fuel ih =>
    intro stack n e h
    rw [resolveNameF] at h
    by_cases hst : n ∈ stack
    · simp [hst] at h
      exact Or.inr ⟨n, h.symm⟩
    · simp only [hst, if_false] at h
      cases hlk : lookupKey n reg with
      | none =>
        rw [hlk] at h
        simp at h
        exact Or.inl ⟨n, h.symm, Relation.ReflTransGen.refl, hlk⟩
      | some refs =>
        rw [hlk] at h
        obtain ⟨r, hr, herr⟩ := resolveListF_error_elem reg fuel (n :: stack) e refs h
        rcases ih (n :: stack) r e herr with ⟨m, he, hreach, hnone⟩ | hcyc
        · exact Or.inl ⟨m, he, Relation.ReflTransGen.head ⟨refs, hlk, hr⟩ hreach, hnone⟩
        · exact Or.inr hcyc

/-- A successful resolution keeps every reachable name off the incoming
stack. -/
lemma resolve_ok_stack (reg : RecipeRegistry) :
    ∀ (fuel : Nat) (stack : List String) (n : String),
      resolveNameF reg fuel stack n = some (.ok ()) →
      ∀ m, Reaches reg n m → m ∉ stack := by
  intro fuel
  induction fuel with
  | zero => intro stack n h; rw [resolveNameF] at h; simp at h
  | succ fuel ih =>
    intro stack n h m hreach
    rw [resolveNameF] at h
    by_cases hst : n ∈ stack
    · simp [hst] at h
    · simp only [hst, if_false] at h
      cases hlk : lookupKey n reg with
      | none => rw [hlk] at h; simp at h
      | some refs =>
        rw [hlk] at h
        rcases Relation.ReflTransGen.cases_head hreach with rfl | ⟨c, hedge, hrest⟩
        · exact hst
        · obtain ⟨refs2, hlk2, hc⟩ := hedge
          rw [hlk] at hlk2
          injection hlk2 with hrefs
          subst hrefs
          have hsub := resolveListF_ok_all reg fuel (n :: stack) refs h c hc
          have := ih (n :: stack) c hsub m hrest
          intro hm
          exact this (List.mem_cons_of_mem _ hm)

/-- A successful resolution implies no cycle is reachable from the resolved
name. -/
lemma resolve_ok_no_cycle (reg : RecipeRegistry) :
    ∀ (fuel : Nat) (stack : List String) (n : String),
      resolveNameF reg fuel stack n = some (.ok ()) →
      ∀ m, Reaches reg n m → ¬ Relation.TransGen (RefEdge reg) m m := by
  intro fuel
  induction fuel with
  | zero => intro stack n h; rw [resolveNameF] at h; simp at h
  | succ fuel ih =>
    intro stack n h m hreach hcyc
    rw [resolveNameF] at h
    by_cases hst : n ∈ stack
    · simp [hst] at h
    · simp only [hst, if_false] at h
      cases hlk : lookupKey n reg with
      | none => rw [hlk] at h; simp at h
      | some refs =>
        rw [hlk] at h
        rcases Relation.ReflTransGen.cases_head hreach with rfl | ⟨c, hedge, hrest⟩
        · obtain ⟨c, hedge, hrest⟩ := Relation.TransGen.head'_iff.mp hcyc
          obtain ⟨refs2, hlk2, hc⟩ := hedge
          rw [hlk] at hlk2
          injection hlk2 with hrefs
          subst hrefs
          have hsub := resolveListF_ok_all reg fuel (n :: stack) refs h c hc
          have := resolve_ok_stack reg fuel (n :: stack) c hsub n hrest
          simp at this
        · obtain ⟨refs2, hlk2, hc⟩ := hedge
          rw [hlk] at hlk2
          injection hlk2 with hrefs
          subst hrefs
          have hsub := resolveListF_ok_all reg fuel (n :: stack) refs h c hc
          exact ih (n :: stack) c hsub m hrest hcyc

/-- C5: the resolution-path stack is checked before expanding (a name already
on the stack fails with `CyclicRecipeError` at once); with fuel beyond the
number of registry names resolution never exhausts its fuel (termination, on
cyclic graphs included); and on a graph with a reachable cycle — a direct
self-reference included — whose reachable names are all defined, resolution
fails with `CyclicRecipeError`. -/
theorem C5_resolution_terminates_cycles_fail :
    (∀ (reg : RecipeRegistry) (fuel : Nat) (stack : List String) (n : String),
      n ∈ stack → 0 < fuel →
      resolveNameF reg fuel stack n = some (Except.error (ResolveError.cyclic n)))
    ∧ (∀ (reg : RecipeRegistry) (fuel : Nat) (stack : List String) (n : String),
      remainingNames reg stack < fuel → resolveNameF reg fuel stack n ≠ none)
    ∧ (∀ (reg : RecipeRegistry) (fuel : Nat) (n : String),
      remainingNames reg [] < fuel →
      (∀ m, Reaches reg n m → (lookupKey m reg).isSome = true) →
      (∃ m, Reaches reg n m ∧ Relation.TransGen (RefEdge reg) m m) →
      ∃ c, resolveNameF reg fuel [] n = some (Except.error (ResolveError.cyclic c))) := by
  refine ⟨?_, ?_, ?_⟩
  · intro reg fuel stack n hst hfuel
    cases fuel with
    | zero => omega
    | succ fuel => rw [resolveNameF]; simp [hst]
  · intro reg fuel stack n hrem
    exact (resolveF_total reg fuel).1 stack n hrem
  · intro reg fuel n hrem hdef ⟨m, hreach, hcyc⟩
    cases hres : resolveNameF reg fuel [] n with
    | none => exact absurd hres ((resolveF_total reg fuel).1 [] n hrem)
    | some res =>
      cases res with
      | ok u =>
        cases u
        exact absurd hcyc (resolve_ok_no_cycle reg fuel [] n hres m hreach)
      | error e =>
        rcases resolve_err_shape reg fuel [] n e hres with ⟨m2, he, hreach2, hnone⟩ | ⟨c, he⟩
        · have := hdef m2 hreach2
          rw [hnone] at this
          simp at this
        · subst he
          exact ⟨c, rfl⟩

/-- A registry with a single, directly self-referential recipe. -/
def regSelf : RecipeRegistry := [("a", ["a"])]

/-- Witness for C5: the stack guard, fuel sufficiency, and the cyclic
failure on a direct self-reference, at concrete inputs. -/
theorem C5_resolution_witness :
    resolveNameF regSelf 2 ["x"] "x" = some (Except.error (ResolveError.cyclic "x"))
    ∧ resolveNameF regSelf 2 [] "a" ≠ none
    ∧ ∃ c, resolveNameF regSelf 2 [] "a" = some (Except.error (ResolveError.cyclic c)) := by
  have hreach : ∀ m, Reaches regSelf "a" m → m = "a" := by
    intro m h
    induction h with
    | refl => rfl
    | tail hab hbc ih =>
      subst ih
      obtain ⟨refs, hl, hm⟩ := hbc
      have : refs = ["a"] := by
        have h2 : lookupKey "a" regSelf = some ["a"] := rfl
        rw [h2] at hl
        injection hl with h3
        exact h3.symm
      subst this
      simpa using hm
  refine ⟨C5_resolution_terminates_cycles_fail.1 regSelf 2 ["x"] "x" (by simp) (by omega),
    C5_resolution_terminates_cycles_fail.2.1 regSelf 2 [] "a" (by decide),
    C5_resolution_terminates_cycles_fail.2.2 regSelf 2 "a" (by decide) ?_ ?_⟩
  · intro m h
    rw [hreach m h]
    rfl
  · exact ⟨"a", Relation.ReflTransGen.refl,
      Relation.TransGen.single ⟨["a"], rfl, by simp⟩⟩

/-! ## Step executor and prompt engine

Modelled from the spec (4.2, 4.4): the executor source is not among the
available files.  Execution produces a trace of side effects (scripts run,
files copied, merges written) together with an optional error; sequencing
stops at the first error.  The external shell and interactive-input
collaborators are the `exitCode` and `answer` fields of the execution
context.  Recipe and prompt recursion carries explicit fuel, decremented
only on recursive descent. -/

/-- Executor failures of spec section 7. -/
inductive Err where
  | scriptFailure (cmd : String) (code : Int)
  | userCancelled
  | definitionError
  | notFoundRecipe (name : String)
  | cyclicRecipe (name : String)
  | invalidOption (name : String)
  | outOfFuel
deriving Repr, DecidableEq

/-- Observable side effects of a run, in order. -/
inductive Effect where
  | ranScript (cmd : String)
  | copied (src : String)
  | merged (src dst : String)
deriving Repr, DecidableEq

/-- Modelled from the spec (6): the execution context threads the
interactivity flag and the external collaborators (shell exit codes,
interactive answer per question; `none` is a cancellation). -/
structure ExecutionContext where
  interactive : Bool
  exitCode : String → Int
  answer : String → Option String

/-- Result of running steps: effect trace and optional first error. -/
abbrev Res := List Effect × Option Err

/-- Sequential composition: a failed prefix short-circuits, a successful one
prepends its trace. -/
def seqRes (r : Res) (f : Unit → Res) : Res :=
  match r with
  | (t, some e) => (t, some e)
  | (t, none) => (t ++ (f ()).1, (f ()).2)

/-- Modelled from the spec (4.2 `scripts`): run each command line in order;
a non-zero exit code yields `ScriptFailureError` and aborts. -/
def runScripts (ctx : ExecutionContext) : List String → Res
  | [] => ([], none)
  | c :: cs =>
    if ctx.exitCode c = 0 then
      (Effect.ranScript c :: (runScripts ctx cs).1, (runScripts ctx cs).2)
    else ([], some (.scriptFailure c (ctx.exitCode c)))

/-- Modelled from the spec (4.4): the prompt engine.  Interactive: the
collaborator chooses (or cancels with `ErrUserCancelled`); non-interactive:
the option named by the default is selected without blocking. -/
def ask (ctx : ExecutionContext) (question : String)
    (options : List (String × List ActionStep)) (defaultName : String) :
    Except Err (String × List ActionStep) :=
  if ctx.interactive then
    match ctx.answer question with
    | none => .error .userCancelled
    | some chosen =>
      match options.find? (fun o => o.1 == chosen) with
      | some o => .ok o
      | none => .error (.invalidOption chosen)
  else
    match options.find? (fun o => o.1 == defaultName) with
    | some o => .ok o
    | none => .error (.invalidOption defaultName)

/-- Registry mapping recipe names to the `preset` action groups of the
resolved definition. -/
abbrev GroupRegistry := List (String × List ActionGroup)

/-- The kind selected by the populated field of a step, in the dispatch
order of the executor. -/
inductive StepKind where
  | kScripts (cmds : List String)
  | kCopy (src : String)
  | kMerge (src dst : String)
  | kRecipe (name : String)
  | kPrompt (q dflt : String) (opts : List (String × List ActionStep))
  | kInvalid
deriving Repr

/-- Modelled from the spec (3, 4.2): field-presence probing that selects the
populated kind of a step. -/
def classify : ActionStep → StepKind
  | .mk sc cp mg d rc pr df opts =>
    if sc ≠ [] then .kScripts sc
    else if cp ≠ "" then .kCopy cp
    else if mg ≠ "" then .kMerge mg d
    else if rc ≠ "" then .kRecipe rc
    else if pr ≠ "" then .kPrompt pr df opts
    else .kInvalid

mutual
/-- Modelled from the spec (4.2): dispatch one step by its populated field.
Recipe steps resolve under the cycle-guard stack and recurse into the
resolved groups; prompt steps ask and recurse into the selected option. -/
def runStep (reg : GroupRegistry) (ctx : ExecutionContext) :
    Nat → List String → ActionStep → Res
  | fuel, stack, s =>
    match classify s with
    | .kScripts cmds => runScripts ctx cmds
    | .kCopy src => ([.copied src], none)
    | .kMerge src dst => ([.merged src dst], none)
    | .kRecipe n =>
      if n ∈ stack then ([], some (.cyclicRecipe n))
      else
        match lookupKey n reg with
        | none => ([], some (.notFoundRecipe n))
        | some gs =>
          match fuel with
          | 0 => ([], some .outOfFuel)
          | fuel + 1 => runGroups reg ctx fuel (n :: stack) gs
    | .kPrompt q dflt opts =>
      match ask ctx q opts dflt with
      | .error e => ([], some e)
      | .ok o =>
        match fuel with
        | 0 => ([], some .outOfFuel)
        | fuel + 1 => runSteps reg ctx fuel stack o.2
    | .kInvalid => ([], some .definitionError)
termination_by fuel _ s => (fuel, sizeOf s)

/-- Run steps of one group in order, stopping at the first failure. -/
def runSteps (reg : GroupRegistry) (ctx : ExecutionContext) :
    Nat → List String → List ActionStep → Res
  | _, _, [] => ([], none)
  | fuel, stack, s :: ss =>
    seqRes (runStep reg ctx fuel stack s) (fun _ => runSteps reg ctx fuel stack ss)
termination_by fuel _ l => (fuel, sizeOf l)

/-- Run groups in order, stopping at the first failure. -/
def runGroups (reg : GroupRegistry) (ctx : ExecutionContext) :
    Nat → List String → List ActionGroup → Res
  | _, _, [] => ([], none)
  | fuel, stack, ⟨_, acts⟩ :: gs =>
    seqRes (runSteps reg ctx fuel stack acts) (fun _ => runGroups reg ctx fuel stack gs)
termination_by fuel _ gs => (fuel, sizeOf gs)
end

/-- Number of populated kind fields of a step. -/
def kindCount : ActionStep → Nat
  | .mk sc cp mg _ rc pr _ _ =>
    (if sc = [] then 0 else 1) + (if cp = "" then 0 else 1) + (if mg = "" then 0 else 1)
    + (if rc = "" then 0 else 1) + (if pr = "" then 0 else 1)

mutual
/-- Modelled from the spec (3, 7): a step is valid when exactly one kind
field is populated, recursively through prompt options. -/
def validStep : ActionStep → Bool
  | .mk sc cp mg d rc pr df options =>
    (kindCount (.mk sc cp mg d rc pr df options) == 1) && validOptions options
termination_by s => sizeOf s

/-- All option branches valid. -/
def validOptions : List (String × List ActionStep) → Bool
  | [] => true
  | (_, acts) :: rest => validSteps acts && validOptions rest
termination_by l => sizeOf l

/-- All steps valid. -/
def validSteps : List ActionStep → Bool
  | [] => true
  | s :: ss => validStep s && validSteps ss
termination_by l => sizeOf l
end

/-- All groups valid. -/
def validGroups : List ActionGroup → Bool
  | [] => true
  | g :: gs => validSteps g.actions && validGroups gs

/-- Modelled from the spec (4.2, 7): `Run` validates the whole definition at
resolution time, before any side effect, and only then executes. -/
def Run (reg : GroupRegistry) (ctx : ExecutionContext) (fuel : Nat)
    (gs : List ActionGroup) : Res :=
  if validGroups gs then runGroups reg ctx fuel [] gs
  else ([], some .definitionError)

/-- Outcome of the top-level command layer: whether the run is surfaced as a
tool failure, and the status messages emitted. -/
structure TopResult where
  failed : Bool
  messages : List String
deriving Repr, DecidableEq

/-- Modelled from the spec (7) and the behavior asserted by
`TestPromptSelectInterruptedError`: `ErrUserCancelled` is a clean
termination, not surfaced as a tool failure, with only a short status
message; any other error is a tool failure. -/
def topLevelHandle : Option Err → TopResult
  | none => ⟨false, []⟩
  | some .userCancelled => ⟨false, ["Operation Cancelled"]⟩
  | some _ => ⟨true, []⟩

/-! ### Executor lemmas -/

lemma seqRes_err (t : List Effect) (e : Err) (f : Unit → Res) :
    seqRes (t, some e) f = (t, some e) := rfl

lemma seqRes_assoc' (a b : Res) (g : Unit → Res) :
    seqRes a (fun _ => seqRes b g) = seqRes (seqRes a (fun _ => b)) g := by
  obtain ⟨t, r⟩ := a
  cases r with
  | some e => rfl
  | none =>
    obtain ⟨t2, r2⟩ := b
    cases r2 <;> simp [seqRes, List.append_assoc]

lemma runSteps_nil (reg : GroupRegistry) (ctx : ExecutionContext) (fuel : Nat)
    (stack : List String) : runSteps reg ctx fuel stack [] = ([], none) := by
  simp [runSteps]

lemma runSteps_cons (reg : GroupRegistry) (ctx : ExecutionContext) (fuel : Nat)
    (stack : List String) (s : ActionStep) (ss : List ActionStep) :
    runSteps reg ctx fuel stack (s :: ss)
      = seqRes (runStep reg ctx fuel stack s) (fun _ => runSteps reg ctx fuel stack ss) := by
  simp [runSteps]

lemma runGroups_nil (reg : GroupRegistry) (ctx : ExecutionContext) (fuel : Nat)
    (stack : List String) : runGroups reg ctx fuel stack [] = ([], none) := by
  simp [runGroups]

lemma runGroups_cons (reg : GroupRegistry) (ctx : ExecutionContext) (fuel : Nat)
    (stack : List String) (g : ActionGroup) (gs : List ActionGroup) :
    runGroups reg ctx fuel stack (g :: gs)
      = seqRes (runSteps reg ctx fuel stack g.actions)
          (fun _ => runGroups reg ctx fuel stack gs) := by
  obtain ⟨nm, acts⟩ := g
  simp [runGroups]

lemma classify_scriptsStep (cmds : List String) (h : cmds ≠ []) :
    classify (scriptsStep cmds) = .kScripts cmds := by
  simp [classify, scriptsStep, h]

lemma classify_copyStep (src : String) (h : src ≠ "") :
    classify (copyStep src) = .kCopy src := by
  simp [classify, copyStep, h]

lemma classify_mergeStep (src dst : String) (h : src ≠ "") :
    classify (mergeStep src dst) = .kMerge src dst := by
  simp [classify, mergeStep, h]

lemma classify_recipeStep (n : String) (h : n ≠ "") :
    classify (recipeStep n) = .kRecipe n := by
  simp [classify, recipeStep, h]

lemma classify_promptStep (q dflt : String) (opts : List (String × List ActionStep))
    (h : q ≠ "") : classify (promptStep q dflt opts) = .kPrompt q dflt opts := by
  simp [classify, promptStep, h]

lemma runStep_scripts (reg : GroupRegistry) (ctx : ExecutionContext) (fuel : Nat)
    (stack : List String) (cmds : List String) (h : cmds ≠ []) :
    runStep reg ctx fuel stack (scriptsStep cmds) = runScripts ctx cmds := by
  simp only [runStep]
  rw [classify_scriptsStep cmds h]

lemma runStep_merge (reg : GroupRegistry) (ctx : ExecutionContext) (fuel : Nat)
    (stack : List String) (src dst : String) (h : src ≠ "") :
    runStep reg ctx fuel stack (mergeStep src dst) = ([.merged src dst], none) := by
  simp only [runStep]
  rw [classify_mergeStep src dst h]

lemma runStep_prompt (reg : GroupRegistry) (ctx : ExecutionContext) (fuel : Nat)
    (stack : List String) (q dflt : String) (opts : List (String × List ActionStep))
    (hq : q ≠ "") :
    runStep reg ctx fuel stack (promptStep q dflt opts)
      = match ask ctx q opts dflt with
        | .error e => ([], some e)
        | .ok o =>
          match fuel with
          | 0 => ([], some Err.outOfFuel)
          | fuel + 1 => runSteps reg ctx fuel stack o.2 := by
  simp only [runStep]
  rw [classify_promptStep q dflt opts hq]

lemma runStep_recipe (reg : GroupRegistry) (ctx : ExecutionContext) (fuel : Nat)
    (stack : List String) (n : String) (gs : List ActionGroup)
    (hn : n ≠ "") (hst : n ∉ stack) (hlk : lookupKey n reg = some gs) :
    runStep reg ctx (fuel + 1) stack (recipeStep n)
      = runGroups reg ctx fuel (n :: stack) gs := by
  simp only [runStep]
  rw [classify_recipeStep n hn]
  simp [hst, hlk]

lemma ask_cancel (ctx : ExecutionContext) (q dflt : String)
    (opts : List (String × List ActionStep))
    (hint : ctx.interactive = true) (hans : ctx.answer q = none) :
    ask ctx q opts dflt = .error .userCancelled := by
  simp [ask, hint, hans]

lemma ask_noninteractive (ctx : ExecutionContext) (q dflt : String)
    (opts : List (String × List ActionStep)) (p : String × List ActionStep)
    (hint : ctx.interactive = false)
    (hfind : opts.find? (fun o => o.1 == dflt) = some p) :
    ask ctx q opts dflt = .ok p := by
  simp [ask, hint, hfind]

lemma runSteps_append (reg : GroupRegistry) (ctx : ExecutionContext) (fuel : Nat)
    (stack : List String) : ∀ l1 l2 : List ActionStep,
    runSteps reg ctx fuel stack (l1 ++ l2)
      = seqRes (runSteps reg ctx fuel stack l1)
          (fun _ => runSteps reg ctx fuel stack l2) := by
  intro l1 l2
  induction l1 with
  | nil => simp [runSteps_nil, seqRes]
  | cons s ss ih =>
    rw [List.cons_append, runSteps_cons]
    simp only [ih]
    rw [seqRes_assoc']
    conv_rhs => rw [runSteps_cons]

lemma runGroups_append (reg : GroupRegistry) (ctx : ExecutionContext) (fuel : Nat)
    (stack : List String) : ∀ gs1 gs2 : List ActionGroup,
    runGroups reg ctx fuel stack (gs1 ++ gs2)
      = seqRes (runGroups reg ctx fuel stack gs1)
          (fun _ => runGroups reg ctx fuel stack gs2) := by
  intro gs1 gs2
  induction gs1 with
  | nil => simp [runGroups_nil, seqRes]
  | cons g gs ih =>
    rw [List.cons_append, runGroups_cons]
    simp only [ih]
    rw [seqRes_assoc']
    conv_rhs => rw [runGroups_cons]

lemma runScripts_first_fail (ctx : ExecutionContext) :
    ∀ (cs1 : List String) (c : String) (cs2 : List String),
      (∀ c2 ∈ cs1, ctx.exitCode c2 = 0) → ctx.exitCode c ≠ 0 →
      runScripts ctx (cs1 ++ c :: cs2)
        = (cs1.map Effect.ranScript, some (Err.scriptFailure c (ctx.exitCode c))) := by
  intro cs1
  induction cs1 with
  | nil => intro c cs2 _ hc; simp [runScripts, hc]
  | cons c1 rest ih =>
    intro c cs2 h0 hc
    have h1 : ctx.exitCode c1 = 0 := h0 c1 (List.mem_cons_self _ _)
    have ihr := ih c cs2 (fun c2 hm => h0 c2 (List.mem_cons_of_mem _ hm)) hc
    simp [runScripts, h1, ihr]

/-! ### Validation lemmas -/

lemma validStep_true_kindCount (s : ActionStep) (h : validStep s = true) :
    kindCount s = 1 := by
  cases s with
  | mk sc cp mg d rc pr df opts =>
    rw [validStep] at h
    simp only [Bool.and_eq_true, beq_iff_eq] at h
    exact h.1

lemma validStep_false_of_kindCount (s : ActionStep) (h : kindCount s ≠ 1) :
    validStep s = false := by
  cases s with
  | mk sc cp mg d rc pr df opts =>
    rw [validStep]
    simp only [Bool.and_eq_false_iff, beq_eq_false_iff_ne, ne_eq]
    exact Or.inl h

lemma validSteps_false_of_mem (s : ActionStep) :
    ∀ l : List ActionStep, s ∈ l → validStep s = false → validSteps l = false := by
  intro l
  induction l with
  | nil => intro hm; simp at hm
  | cons s1 ss ih =>
    intro hm h
    rw [validSteps]
    rcases List.mem_cons.mp hm with rfl | hmem
    · simp [h]
    · simp [ih hmem h]

lemma validGroups_false_of_mem (g : ActionGroup) :
    ∀ gs : List ActionGroup, g ∈ gs → validSteps g.actions = false →
      validGroups gs = false := by
  intro gs
  induction gs with
  | nil => intro hm; simp at hm
  | cons g1 rest ih =>
    intro hm h
    rw [validGroups]
    rcases List.mem_cons.mp hm with rfl | hmem
    · simp [h]
    · simp [ih hmem h]

/-! ### Claims C6, C7, C8, C9 -/

/-- C6: execution is sequential with fail-stop semantics.  A failed prefix
short-circuits all subsequent work at every level (steps, groups, enclosing
recursion, via the short-circuiting sequencing) while keeping its
already-applied effects (no rollback); a scripts step dispatches to the
script runner; and the first non-zero exit code yields `ScriptFailureError`
with exactly the preceding commands in the trace and nothing after. -/
theorem C6_first_failure_aborts :
    (∀ (t : List Effect) (e : Err) (f : Unit → Res), seqRes (t, some e) f = (t, some e))
    ∧ (∀ (reg : GroupRegistry) (ctx : ExecutionContext) (fuel : Nat)
        (stack : List String) (cmds : List String), cmds ≠ [] →
        runStep reg ctx fuel stack (scriptsStep cmds) = runScripts ctx cmds)
    ∧ (∀ (ctx : ExecutionContext) (cs1 : List String) (c : String) (cs2 : List String),
        (∀ c2 ∈ cs1, ctx.exitCode c2 = 0) → ctx.exitCode c ≠ 0 →
        runScripts ctx (cs1 ++ c :: cs2)
          = (cs1.map Effect.ranScript, some (Err.scriptFailure c (ctx.exitCode c))))
    ∧ (∀ (reg : GroupRegistry) (ctx : ExecutionContext) (fuel : Nat)
        (stack : List String) (l1 l2 : List ActionStep),
        runSteps reg ctx fuel stack (l1 ++ l2)
          = seqRes (runSteps reg ctx fuel stack l1)
              (fun _ => runSteps reg ctx fuel stack l2))
    ∧ (∀ (reg : GroupRegistry) (ctx : ExecutionContext) (fuel : Nat)
        (stack : List String) (gs1 gs2 : List ActionGroup),
        runGroups reg ctx fuel stack (gs1 ++ gs2)
          = seqRes (runGroups reg ctx fuel stack gs1)
              (fun _ => runGroups reg ctx fuel stack gs2)) :=
  ⟨seqRes_err, runStep_scripts, runScripts_first_fail,
   runSteps_append, runGroups_append⟩

/-- A shell collaborator where only the command "bad" fails. -/
def ctxDemo : ExecutionContext := ⟨false, fun c => if c = "bad" then 1 else 0, fun _ => none⟩

/-- Witness for C6: the command "bad" fails after "ok" succeeded; the
following command never runs and the trace keeps the applied effect. -/
theorem C6_first_failure_aborts_witness :
    runScripts ctxDemo ["ok", "bad", "after"]
      = ([Effect.ranScript "ok"], some (Err.scriptFailure "bad" (ctxDemo.exitCode "bad"))) := by
  have h := C6_first_failure_aborts.2.2.1 ctxDemo ["ok"] "bad" ["after"]
    (by intro c2 hm; simp at hm; subst hm; decide)
    (by decide)
  simpa using h

/-- C7: a step is valid exactly when one kind field is populated; `Run`
validates the whole definition first and rejects any instance containing a
step with zero or several kinds as `DefinitionError`, with an empty effect
trace (no side effect has run). -/
theorem C7_exactly_one_kind :
    (∀ s : ActionStep, validStep s = true → kindCount s = 1)
    ∧ (∀ s : ActionStep, kindCount s ≠ 1 → validStep s = false)
    ∧ (∀ (reg : GroupRegistry) (ctx : ExecutionContext) (fuel : Nat)
        (gs : List ActionGroup), validGroups gs = false →
        Run reg ctx fuel gs = ([], some Err.definitionError))
    ∧ (∀ (reg : GroupRegistry) (ctx : ExecutionContext) (fuel : Nat)
        (gs : List ActionGroup) (g : ActionGroup) (s : ActionStep),
        g ∈ gs → s ∈ g.actions → kindCount s ≠ 1 →
        Run reg ctx fuel gs = ([], some Err.definitionError)) := by
  refine ⟨validStep_true_kindCount, validStep_false_of_kindCount, ?_, ?_⟩
  · intro reg ctx fuel gs h
    simp [Run, h]
  · intro reg ctx fuel gs g s hg hs hk
    have h1 := validStep_false_of_kindCount s hk
    have h2 := validSteps_false_of_mem s g.actions hs h1
    have h3 := validGroups_false_of_mem g gs hg h2
    simp [Run, h3]

/-- A step with no populated kind field. -/
def emptyStep : ActionStep := .mk [] "" "" "" "" "" "" []

/-- Witness for C7: a group containing a kind-less step is rejected before
any effect. -/
theorem C7_exactly_one_kind_witness :
    Run [] ctxDemo 1 [⟨"bad group", [emptyStep]⟩]
      = ([], some Err.definitionError) :=
  C7_exactly_one_kind.2.2.2 [] ctxDemo 1 [⟨"bad group", [emptyStep]⟩]
    ⟨"bad group", [emptyStep]⟩ emptyStep
    (List.mem_singleton.mpr rfl) (List.mem_singleton.mpr rfl) (by decide)

/-- C8: cancelling an interactive prompt stops the run with
`ErrUserCancelled`: the prompt step yields exactly that error with no
effects, a cancelled prefix short-circuits the remaining steps, the error
propagates unchanged through an enclosing recipe recursion, and the
top-level command layer treats it as a clean, non-failure termination with
only a short status message. -/
theorem C8_user_cancel_clean_abort :
    (∀ (reg : GroupRegistry) (ctx : ExecutionContext) (fuel : Nat)
        (stack : List String) (q dflt : String)
        (opts : List (String × List ActionStep)),
      ctx.interactive = true → ctx.answer q = none → q ≠ "" →
      runStep reg ctx fuel stack (promptStep q dflt opts)
        = ([], some Err.userCancelled))
    ∧ (∀ (reg : GroupRegistry) (ctx : ExecutionContext) (fuel : Nat)
        (stack : List String) (l1 l2 : List ActionStep) (t : List Effect),
      runSteps reg ctx fuel stack l1 = (t, some Err.userCancelled) →
      runSteps reg ctx fuel stack (l1 ++ l2) = (t, some Err.userCancelled))
    ∧ (∀ (reg : GroupRegistry) (ctx : ExecutionContext) (fuel : Nat)
        (stack : List String) (n : String) (gs : List ActionGroup) (t : List Effect),
      n ≠ "" → n ∉ stack → lookupKey n reg = some gs →
      runGroups reg ctx fuel (n :: stack) gs = (t, some Err.userCancelled) →
      runStep reg ctx (fuel + 1) stack (recipeStep n) = (t, some Err.userCancelled))
    ∧ topLevelHandle (some Err.userCancelled)
        = ⟨false, ["Operation Cancelled"]⟩ := by
  refine ⟨?_, ?_, ?_, rfl⟩
  · intro reg ctx fuel stack q dflt opts hint hans hq
    rw [runStep_prompt reg ctx fuel stack q dflt opts hq,
      ask_cancel ctx q dflt opts hint hans]
  · intro reg ctx fuel stack l1 l2 t h
    rw [runSteps_append, h, seqRes_err]
  · intro reg ctx fuel stack n gs t hn hst hlk h
    rw [runStep_recipe reg ctx fuel stack n gs hn hst hlk, h]

/-- A fully cancelling interactive collaborator. -/
def ctxCancel : ExecutionContext := ⟨true, fun _ => 0, fun _ => none⟩

/-- A registry with one recipe whose group holds a single prompt step. -/
def regCancel : GroupRegistry := [("r", [⟨"g", [promptStep "q" "d" []]⟩])]

/-- Witness for C8: a cancelled prompt, the short-circuited continuation, the
unchanged propagation through a recipe step, and the clean top-level
handling, at concrete inputs. -/
theorem C8_user_cancel_clean_abort_witness :
    runStep [] ctxCancel 1 [] (promptStep "Continue?" "yes" [])
      = ([], some Err.userCancelled)
    ∧ runSteps [] ctxCancel 1 [] ([promptStep "q" "d" []] ++ [copyStep "x"])
      = ([], some Err.userCancelled)
    ∧ runStep regCancel ctxCancel 2 [] (recipeStep "r")
      = ([], some Err.userCancelled)
    ∧ topLevelHandle (some Err.userCancelled) = ⟨false, ["Operation Cancelled"]⟩ := by
  have h1 : runSteps [] ctxCancel 1 [] [promptStep "q" "d" []]
      = ([], some Err.userCancelled) := by
    simp [runSteps, runStep, classify, promptStep, ask, ctxCancel, seqRes]
  have h2 : runGroups regCancel ctxCancel 1 ["r"] [⟨"g", [promptStep "q" "d" []]⟩]
      = ([], some Err.userCancelled) := by
    simp [runGroups, runSteps, runStep, classify, promptStep, ask, ctxCancel, seqRes]
  refine ⟨C8_user_cancel_clean_abort.1 [] ctxCancel 1 [] "Continue?" "yes" []
      rfl rfl (by decide),
    C8_user_cancel_clean_abort.2.1 [] ctxCancel 1 [] [promptStep "q" "d" []]
      [copyStep "x"] [] h1,
    C8_user_cancel_clean_abort.2.2.1 regCancel ctxCancel 1 [] "r"
      [⟨"g", [promptStep "q" "d" []]⟩] [] (by decide) (by decide) rfl h2,
    C8_user_cancel_clean_abort.2.2.2⟩

/-- C9: a prompt run non-interactively selects the option named by the
default without blocking and executes exactly that option's nested actions;
for the AdonisJS package-manager prompt (options npm/yarn, default npm),
only the npm branch's merge effect is produced. -/
theorem C9_noninteractive_default :
    (∀ (reg : GroupRegistry) (ctx : ExecutionContext) (fuel : Nat)
        (stack : List String) (q dflt : String)
        (opts : List (String × List ActionStep)) (p : String × List ActionStep),
      ctx.interactive = false → q ≠ "" →
      opts.find? (fun o => o.1 == dflt) = some p →
      runStep reg ctx (fuel + 1) stack (promptStep q dflt opts)
        = runSteps reg ctx fuel stack p.2)
    ∧ (∀ (reg : GroupRegistry) (ctx : ExecutionContext) (fuel : Nat)
        (stack : List String), ctx.interactive = false →
      runStep reg ctx (fuel + 1) stack adonisPromptStep
        = ([Effect.merged "scripts/npm-adonis.yml" "kool.yml"], none)) := by
  have hgen : ∀ (reg : GroupRegistry) (ctx : ExecutionContext) (fuel : Nat)
      (stack : List String) (q dflt : String)
      (opts : List (String × List ActionStep)) (p : String × List ActionStep),
      ctx.interactive = false → q ≠ "" →
      opts.find? (fun o => o.1 == dflt) = some p →
      runStep reg ctx (fuel + 1) stack (promptStep q dflt opts)
        = runSteps reg ctx fuel stack p.2 := by
    intro reg ctx fuel stack q dflt opts p hint hq hfind
    rw [runStep_prompt reg ctx (fuel + 1) stack q dflt opts hq,
      ask_noninteractive ctx q dflt opts p hint hfind]
  refine ⟨hgen, ?_⟩
  intro reg ctx fuel stack hint
  have hfind : [("npm", [mergeStep "scripts/npm-adonis.yml" "kool.yml"]),
      ("yarn", [mergeStep "scripts/yarn-adonis.yml" "kool.yml"])].find?
        (fun o => o.1 == "npm")
      = some ("npm", [mergeStep "scripts/npm-adonis.yml" "kool.yml"]) := by rfl
  rw [show adonisPromptStep
      = promptStep "Which javascript package manager do you want to use?" "npm"
        [("npm", [mergeStep "scripts/npm-adonis.yml" "kool.yml"]),
         ("yarn", [mergeStep "scripts/yarn-adonis.yml" "kool.yml"])] from rfl]
  rw [hgen reg ctx fuel stack _ "npm" _ _ hint (by decide) hfind]
  rw [runSteps_cons, runSteps_nil,
    runStep_merge reg ctx fuel stack "scripts/npm-adonis.yml" "kool.yml" (by decide)]
  simp [seqRes]

/-- A plain non-interactive context. -/
def ctxNI : ExecutionContext := ⟨false, fun _ => 0, fun _ => none⟩

/-- Witness for C9: the AdonisJS prompt run non-interactively produces
exactly the npm merge effect. -/
theorem C9_noninteractive_default_witness :
    runStep [] ctxNI 1 [] adonisPromptStep
      = ([Effect.merged "scripts/npm-adonis.yml" "kool.yml"], none) :=
  C9_noninteractive_default.2 [] ctxNI 0 [] rfl

end Kool
